import Mathlib

/-!
Verification of the incremental module-bundling and cache-invalidation
pipeline specified for this repository, together with the Redux user state
code and the webpack build configurations found in the repository.

The bundler core (Module Graph, Chunk Partitioner, Content Hasher,
Incremental Cache, Manifest Builder, Build Orchestrator) is present in the
repository only as a natural-language specification plus webpack
configuration files; the definitions below for that core are therefore
modelled from the spec.  The Redux `signIn` / `setUserData` / user reducer
definitions are translated from the JavaScript shown in part4's README, and
the development build-output naming is translated from
part1/webpack.config.js and part3's development configuration.
-/

/-- Modelled from the spec: a Module's unique path-like identifier (§3).
Identifiers are represented by their code in a fixed enumeration of path
strings, so the linear order on `Nat` plays the role of the lexical order
on identifiers demanded by §4.3. -/
abbrev ModuleId := Nat

/-- Modelled from the spec: raw content bytes of a module or artifact (§3). -/
abbrev Bytes := List Nat

/-- Modelled from the spec: a Module has a unique path-like identifier, raw
content bytes, and an ordered set of outgoing dependency edges (§3). -/
structure SrcModule where
  id : ModuleId
  content : Bytes
  deps : List ModuleId
deriving DecidableEq, Repr

/-- Modelled from the spec: the Module Graph is the static representation of
source files and import edges (§4.1); it exposes its set of modules. -/
structure ModuleGraph where
  modules : List SrcModule
deriving DecidableEq, Repr

/-- Modelled from the spec: the partition policy consists of the shared
module roots, the entry points and the dynamic lazy-load boundaries
(§4.2, §6). -/
structure Policy where
  sharedModuleNames : List ModuleId
  entryPoints : List ModuleId
  dynamicBoundaries : List ModuleId
deriving DecidableEq, Repr

/-- Modelled from the spec: module lookup in the Module Graph by identifier. -/
def lookupMod (g : ModuleGraph) (i : ModuleId) : Option SrcModule :=
  g.modules.find? (fun m => m.id == i)

/-- Modelled from the spec: `dependencies()` of a module, as exposed by the
Module Graph (§4.1); empty for an identifier with no module. -/
def depsOf (g : ModuleGraph) (i : ModuleId) : List ModuleId :=
  ((lookupMod g i).map SrcModule.deps).getD []

/-- Modelled from the spec: the computed content digest of a module (§3);
modelled as a perfect digest, i.e. the content itself. -/
def digOf (g : ModuleGraph) (i : ModuleId) : Bytes :=
  ((lookupMod g i).map SrcModule.content).getD []

/-- Modelled from the spec: fuel bound for reachability searches; any
dependency path can be shortened to visit each module at most once. -/
def graphFuel (g : ModuleGraph) : Nat := g.modules.length

/-- Modelled from the spec: the universe of module identifiers, in the fixed
deterministic lexical order demanded by §4.3 / §9 (never insertion order). -/
def sortedIds (g : ModuleGraph) : List ModuleId :=
  List.insertionSort (· ≤ ·) (g.modules.map SrcModule.id)

/-- Modelled from the spec: whether module `i` is reachable from root `r`
along dependency edges, with explicit fuel. -/
def reaches (D : ModuleId → List ModuleId) : Nat → ModuleId → ModuleId → Bool
  | 0, r, i => r == i
  | n+1, r, i => r == i || (D r).any (fun d => reaches D n d i)

/-- Modelled from the spec: a chunk is one of `entry`, `shared` or `dynamic`
(§3), represented as a tagged variant (§9). -/
inductive ChunkKind where
  | entry
  | shared
  | dynamic
deriving DecidableEq, Repr

/-- Modelled from the spec: the name of an output unit: the single shared
vendor chunk, an entry chunk named after its entry point, or a dynamic chunk
named after the set of lazy-load boundaries it serves (§4.2). -/
inductive ChunkName where
  | shared
  | entry (e : ModuleId)
  | dynamic (boundaries : List ModuleId)
deriving DecidableEq, Repr

/-- Modelled from the spec: a Chunk is a named output unit owning an
ordered, deduplicated set of modules, with a kind (§3). -/
structure Chunk where
  name : ChunkName
  kind : ChunkKind
  members : List ModuleId
deriving DecidableEq, Repr

/-- Modelled from the spec: the fatal error raised when an entry point is
unreachable / its root module is missing (§4.1, §7). -/
inductive GraphError where
  | entryUnreachable (e : ModuleId)
deriving DecidableEq, Repr

/-- Modelled from the spec: canonicalized policy; the shared roots, entry
points and boundaries are sets, so duplicates are dropped. -/
def canonPolicy (p : Policy) : Policy :=
  ⟨p.sharedModuleNames.dedup, p.entryPoints.dedup, p.dynamicBoundaries.dedup⟩

/-- Modelled from the spec: reachability from any root in a list. -/
def reachesFromAny (D : ModuleId → List ModuleId) (fuel : Nat)
    (roots : List ModuleId) (i : ModuleId) : Bool :=
  roots.any (fun r => reaches D fuel r i)

/-- Modelled from the spec: the entry points whose reachable set contains
module `i`. -/
def entriesReaching (D : ModuleId → List ModuleId) (fuel : Nat) (p : Policy)
    (i : ModuleId) : List ModuleId :=
  p.entryPoints.filter (fun e => reaches D fuel e i)

/-- Modelled from the spec: a module belongs to the shared chunk when it is
reachable from the declared shared/vendor roots (claimed by shared first) or
is referenced by two or more entry points (§4.2). -/
def isShared (D : ModuleId → List ModuleId) (fuel : Nat) (p : Policy)
    (i : ModuleId) : Bool :=
  reachesFromAny D fuel p.sharedModuleNames i
    || 2 ≤ (entriesReaching D fuel p i).length

/-- Modelled from the spec: a module belongs to the entry chunk of entry
point `e` when it is reachable from `e` and not already claimed by the
shared chunk (§4.2). -/
def isEntryMember (D : ModuleId → List ModuleId) (fuel : Nat) (p : Policy)
    (e i : ModuleId) : Bool :=
  reaches D fuel e i && !isShared D fuel p i

/-- Modelled from the spec: the set of dynamic lazy-load boundaries that
reach module `i`, for a module claimed neither by the shared chunk nor by
any entry chunk; such a module is placed in the one dynamic chunk shared by
exactly that set of boundaries (§4.2). An empty key means the module is in
no dynamic chunk. -/
def dynKey (D : ModuleId → List ModuleId) (fuel : Nat) (p : Policy)
    (i : ModuleId) : List ModuleId :=
  if isShared D fuel p i || p.entryPoints.any (fun e => reaches D fuel e i) then []
  else p.dynamicBoundaries.filter (fun b => reaches D fuel b i)

/-- Modelled from the spec: the single shared (vendor-style) chunk (§4.2). -/
def sharedChunk (univ : List ModuleId) (D : ModuleId → List ModuleId)
    (fuel : Nat) (p : Policy) : Chunk :=
  ⟨.shared, .shared, univ.filter (fun i => isShared D fuel p i)⟩

/-- Modelled from the spec: the entry chunk of entry point `e` (§4.2). -/
def entryChunk (univ : List ModuleId) (D : ModuleId → List ModuleId)
    (fuel : Nat) (p : Policy) (e : ModuleId) : Chunk :=
  ⟨.entry e, .entry, univ.filter (fun i => isEntryMember D fuel p e i)⟩

/-- Modelled from the spec: the distinct nonempty dynamic boundary keys that
occur among the modules of the graph (§4.2). -/
def dynKeys (univ : List ModuleId) (D : ModuleId → List ModuleId)
    (fuel : Nat) (p : Policy) : List (List ModuleId) :=
  ((univ.map (fun i => dynKey D fuel p i)).filter (fun k => !k.isEmpty)).dedup

/-- Modelled from the spec: the dynamic chunk for boundary set `k` (§4.2). -/
def dynChunk (univ : List ModuleId) (D : ModuleId → List ModuleId)
    (fuel : Nat) (p : Policy) (k : List ModuleId) : Chunk :=
  ⟨.dynamic k, .dynamic, univ.filter (fun i => dynKey D fuel p i == k)⟩

/-- Modelled from the spec: the Chunk Partitioner (§4.2).  Fails with
`GraphError` when an entry point's root module is missing from the graph;
otherwise produces the shared chunk, one entry chunk per entry point, and
one dynamic chunk per occurring boundary set.  Orphan modules (reachable
from no declared root) are excluded from every chunk (§4.2, §7). -/
def partitionCore (univ : List ModuleId) (D : ModuleId → List ModuleId)
    (fuel : Nat) (p0 : Policy) : Except GraphError (List Chunk) :=
  match (canonPolicy p0).entryPoints.find? (fun e => !univ.contains e) with
  | some e => .error (.entryUnreachable e)
  | none =>
      .ok (sharedChunk univ D fuel (canonPolicy p0)
            :: ((canonPolicy p0).entryPoints.map (entryChunk univ D fuel (canonPolicy p0))
                ++ (dynKeys univ D fuel (canonPolicy p0)).map
                     (dynChunk univ D fuel (canonPolicy p0))))

/-- Modelled from the spec: the Chunk Partitioner applied to a Module Graph
(§4.2), with the deterministic identifier universe and dependency function
exposed by the graph. -/
def partitionOf (g : ModuleGraph) (p : Policy) : Except GraphError (List Chunk) :=
  partitionCore (sortedIds g) (depsOf g) (graphFuel g) p

deriving instance DecidableEq for Except

/-- Modelled from the spec: a ChunkIdentity is a digest derived from the
chunk's content and from the identities of the chunks it depends on (§3).
It is modelled as a perfect (collision-free) digest: `contentD` digests the
ordered list of member content digests, and `depsCons` absorbs one
dependency identity. -/
inductive Digest where
  | contentD (memberDigests : List Bytes)
  | depsCons (dep : Digest) (rest : Digest)
deriving DecidableEq, Repr

/-- Modelled from the spec: the Content Hasher's digest over (a) the ordered
member content digests and (b) the dependency chunk identities (§4.3). -/
def digestOf (memberDigests : List Bytes) (depIdentities : List Digest) : Digest :=
  depIdentities.foldr Digest.depsCons (Digest.contentD memberDigests)

/-- Modelled from the spec: whether, among the still-unprocessed members
`rem` of a chunk, module `i` is blocked by an in-chunk dependency that has
not been emitted yet (a self-loop never blocks). -/
def blockedIn (D : ModuleId → List ModuleId) (rem : List ModuleId)
    (i : ModuleId) : Bool :=
  (D i).any (fun d => rem.contains d && d != i)

/-- Modelled from the spec: the next module to emit: the lexically smallest
unprocessed member with no unprocessed in-chunk dependency, falling back to
the lexically smallest member when every one is blocked (cycles inside a
chunk are permitted, §4.1/§4.3). -/
def topoNext (D : ModuleId → List ModuleId) (rem : List ModuleId) :
    Option ModuleId :=
  match rem.filter (fun i => !blockedIn D rem i) with
  | x :: _ => some x
  | [] => rem.head?

/-- Modelled from the spec: fuel-driven emission loop of the deterministic
topological order with lexical tie-break (§4.3). -/
def topoLexAux (D : ModuleId → List ModuleId) : Nat → List ModuleId → List ModuleId
  | 0, _ => []
  | n+1, rem =>
      match topoNext D rem with
      | none => []
      | some x => x :: topoLexAux D n (rem.erase x)

/-- Modelled from the spec: the fixed deterministic order of a chunk's
members: topological, ties broken by module identifier lexical order (§4.3). -/
def topoLex (D : ModuleId → List ModuleId) (members : List ModuleId) :
    List ModuleId :=
  topoLexAux D members.length members

/-- Modelled from the spec: the ordered content digests of a chunk's
members, in the fixed deterministic order (§4.3). -/
def memberDigests (D : ModuleId → List ModuleId) (dig : ModuleId → Bytes)
    (c : Chunk) : List Bytes :=
  (topoLex D c.members).map dig

/-- Modelled from the spec: a chunk's content is the deterministic
concatenation of its modules in the fixed order (§3). -/
def serializeChunk (D : ModuleId → List ModuleId) (dig : ModuleId → Bytes)
    (c : Chunk) : Bytes :=
  ((topoLex D c.members).map dig).flatten

/-- Modelled from the spec: chunk `c` statically depends on chunk `d` when
some member of `c` has a dependency edge into a member of `d` (§3, §4.3). -/
def chunkDepB (D : ModuleId → List ModuleId) (c d : Chunk) : Bool :=
  c != d && c.members.any (fun i => (D i).any (fun x => d.members.contains x))

/-- Modelled from the spec: the chunks among `chunks` that `c` statically
depends on (§4.3). -/
def chunkDepsOf (D : ModuleId → List ModuleId) (chunks : List Chunk)
    (c : Chunk) : List Chunk :=
  chunks.filter (fun d => chunkDepB D c d)

/-- Modelled from the spec: the Content Hasher `identity(chunk,
dependencyIdentities)` (§4.3), computed recursively over the chunk
dependency relation with explicit fuel; a dependency's identity is always
computed before it is absorbed into a dependent's identity. -/
def chunkIdentityAux (D : ModuleId → List ModuleId) (dig : ModuleId → Bytes)
    (chunks : List Chunk) : Nat → Chunk → Digest
  | 0, c => digestOf (memberDigests D dig c) []
  | n+1, c =>
      digestOf (memberDigests D dig c)
        ((chunkDepsOf D chunks c).map (chunkIdentityAux D dig chunks n))

/-- Modelled from the spec: the ChunkIdentity of a chunk of the partition;
dependency chains between distinct chunks are bounded by the number of
chunks (§4.3). -/
def chunkIdentity (D : ModuleId → List ModuleId) (dig : ModuleId → Bytes)
    (chunks : List Chunk) (c : Chunk) : Digest :=
  chunkIdentityAux D dig chunks chunks.length c

/-- Modelled from the spec: ChunkIdentity computation over a Module Graph. -/
def chunkIdentityOf (g : ModuleGraph) (chunks : List Chunk) (c : Chunk) : Digest :=
  chunkIdentity (depsOf g) (digOf g) chunks c

/-- Modelled from the spec: whether chunk `c` transitively depends on chunk
`a` through the static chunk dependency relation, with explicit fuel. -/
def dependsOn (D : ModuleId → List ModuleId) (chunks : List Chunk) :
    Nat → Chunk → Chunk → Bool
  | 0, _, _ => false
  | n+1, c, a =>
      (chunkDepsOf D chunks c).any (fun d => d == a || dependsOn D chunks n d a)

/-- Modelled from the spec: the Incremental Cache key: the multiset of
Module content digests that produced a chunk, not the chunk name (§4.4). -/
def chunkKey (dig : ModuleId → Bytes) (c : Chunk) : Multiset Bytes :=
  ↑(c.members.map dig)

/-- Modelled from the spec: one persisted prior build result, keyed by
module content digests (§4.4). -/
structure CacheEntry where
  key : Multiset Bytes
  bytes : Bytes
  ident : Digest
deriving DecidableEq

/-- Modelled from the spec: the Incremental Cache, a read-only historical
view keyed by Module content digests (§3, §4.4). -/
abbrev Cache := List CacheEntry

/-- Modelled from the spec: `lookup(setOfModuleDigests)` (§4.4). -/
def cacheLookup (cache : Cache) (k : Multiset Bytes) : Option CacheEntry :=
  cache.find? (fun e => e.key == k)

/-- Modelled from the spec: `store(setOfModuleDigests, output)` with
at-most-one physical write per key (§4.4, §5). -/
def cacheStore (cache : Cache) (k : Multiset Bytes) (bs : Bytes)
    (ident : Digest) : Cache :=
  match cacheLookup cache k with
  | some _ => cache
  | none => ⟨k, bs, ident⟩ :: cache

/-- Modelled from the spec: an output artifact: a chunk with its
ChunkIdentity and output bytes (§3 BuildResult). -/
structure Artifact where
  chunk : Chunk
  ident : Digest
  bytes : Bytes
deriving DecidableEq

/-- Modelled from the spec: the Manifest maps each entry point to the
ordered list of chunk identities required to run it (dependencies before
dependents), plus build-level metadata; the Manifest itself is not a chunk
and its identity feeds into no chunk's identity (§3, §4.5). -/
structure Manifest where
  entries : List (ModuleId × List Digest)
  meta : String
deriving DecidableEq

/-- Modelled from the spec: a BuildResult is the set of (Chunk,
ChunkIdentity, bytes) triples of this build plus one Manifest (§3). -/
structure BuildResult where
  artifacts : List Artifact
  manifest : Manifest
deriving DecidableEq

/-- Modelled from the spec: the Build Orchestrator's per-chunk step: consult
the Incremental Cache; on a hit reuse prior output bytes and ChunkIdentity
verbatim and skip recompute; on a miss compute both (§4.4, §4.6).  The
returned flag records whether the chunk was recomputed. -/
def buildChunkCached (cache : Cache) (D : ModuleId → List ModuleId)
    (dig : ModuleId → Bytes) (chunks : List Chunk) (c : Chunk) :
    Artifact × Bool :=
  match cacheLookup cache (chunkKey dig c) with
  | some e => (⟨c, e.ident, e.bytes⟩, false)
  | none => (⟨c, chunkIdentity D dig chunks c, serializeChunk D dig c⟩, true)

/-- Modelled from the spec: fold of the per-chunk step over all chunks of
the build, threading the cache and storing each computed output (§4.6). -/
def buildChunksCached (D : ModuleId → List ModuleId) (dig : ModuleId → Bytes)
    (chunks : List Chunk) : Cache → List Chunk → List (Artifact × Bool) × Cache
  | cache, [] => ([], cache)
  | cache, c :: rest =>
      let af := buildChunkCached cache D dig chunks c
      let cache' := cacheStore cache (chunkKey dig c) af.1.bytes af.1.ident
      let rec' := buildChunksCached D dig chunks cache' rest
      (af :: rec'.1, rec'.2)

/-- Modelled from the spec: the Manifest Builder (§4.5): per entry point the
ordered identities of the chunks it requires, dependencies first, then the
entry chunk itself; plus the metadata that changes every build. -/
def manifestCore (univ : List ModuleId) (D : ModuleId → List ModuleId)
    (dig : ModuleId → Bytes) (fuel : Nat) (p : Policy) (chunks : List Chunk)
    (meta : String) : Manifest :=
  ⟨(canonPolicy p).entryPoints.map (fun e =>
      (e, ((chunkDepsOf D chunks (entryChunk univ D fuel (canonPolicy p) e)).map
             (chunkIdentity D dig chunks))
          ++ [chunkIdentity D dig chunks (entryChunk univ D fuel (canonPolicy p) e)])),
   meta⟩

/-- Modelled from the spec: the Build Orchestrator driving one build as a
single transaction (§4.6): partition, compute identities bottom-up through
the cache, build the Manifest; abort with no output on `GraphError`. -/
def orchestrateCore (univ : List ModuleId) (D : ModuleId → List ModuleId)
    (dig : ModuleId → Bytes) (fuel : Nat) (cache : Cache) (p : Policy)
    (meta : String) : Except GraphError (BuildResult × Cache) :=
  match partitionCore univ D fuel p with
  | .error e => .error e
  | .ok chunks =>
      let ac := buildChunksCached D dig chunks cache chunks
      .ok (⟨(ac.1.map Prod.fst), manifestCore univ D dig fuel p chunks meta⟩, ac.2)

/-- Modelled from the spec: one build over a Module Graph (§4.6). -/
def orchestrate (cache : Cache) (g : ModuleGraph) (p : Policy)
    (meta : String) : Except GraphError (BuildResult × Cache) :=
  orchestrateCore (sortedIds g) (depsOf g) (digOf g) (graphFuel g) cache p meta

/-- Modelled from the spec: a full build from an empty cache; its result is
deterministic in the Module Graph and policy (§8). -/
def runBuild (g : ModuleGraph) (p : Policy) (meta : String) :
    Except GraphError BuildResult :=
  (orchestrate [] g p meta).map Prod.fst

/-- Modelled from the spec: atomic publish (§4.6): on success the published
state is replaced by the complete new BuildResult; on any unrecoverable
error the previously published artifacts remain valid and untouched. -/
def publish (disk : Option BuildResult) (cache : Cache) (g : ModuleGraph)
    (p : Policy) (meta : String) : Option BuildResult × Cache :=
  match orchestrate cache g p meta with
  | .error _ => (disk, cache)
  | .ok rc => (some rc.1, rc.2)

/-- Modelled from the spec: replacing the content of the module named `mid`
(a rebuild in which exactly one module's content changed). -/
def editContent (g : ModuleGraph) (mid : ModuleId) (newC : Bytes) : ModuleGraph :=
  ⟨g.modules.map (fun m => if m.id = mid then ⟨m.id, newC, m.deps⟩ else m)⟩

/-- Modelled from the spec: the compilation-wide hash that webpack generates
for the whole build (part3 README: the `[hash]` placeholder); it digests the
content of every module of the compilation, so any content change anywhere
changes it. -/
def compilationHash (g : ModuleGraph) : Digest :=
  digestOf ((sortedIds g).map (digOf g)) []

/-- An emitted development file name, following `[name].[hash].js` from
part1/webpack.config.js and config/webpack.development.config.js: the base
name and the embedded compilation-wide hash. -/
structure DevFileName where
  base : ChunkName
  hash : Digest
deriving DecidableEq

/-- Development-mode emission: every artifact's file name embeds the single
compilation-wide `[hash]` (part1/webpack.config.js line 13, part3 README
line 98). -/
def devFileNames (g : ModuleGraph) (chunks : List Chunk) : List DevFileName :=
  chunks.map (fun c => ⟨c.name, compilationHash g⟩)

/-- The user state record, from src/state/user/InitialUserState.js shown in
part4's README: id, firstName, lastName, username, email, role. -/
structure UserState where
  id : Option Int
  firstName : Option String
  lastName : Option String
  username : Option String
  email : Option String
  role : String
deriving DecidableEq, Repr

/-- InitialUserState from part4's README: all fields null and role GUEST. -/
def InitialUserState : UserState :=
  ⟨none, none, none, none, none, "GUEST"⟩

/-- A `userData` payload for `setUserData`: a JavaScript object carrying a
subset of the user state fields; `none` models an absent property, which
`Object.assign` leaves unchanged. -/
structure UserData where
  id : Option (Option Int)
  firstName : Option (Option String)
  lastName : Option (Option String)
  username : Option (Option String)
  email : Option (Option String)
  role : Option String
deriving DecidableEq, Repr

/-- The action type constant SET_USER_DATA from src/state/user/index.js. -/
def SET_USER_DATA : String := "SET_USER_DATA"

/-- A Redux action as used by the user reducer: a type tag and the
`userData` payload. -/
structure UAction where
  type : String
  userData : UserData
deriving DecidableEq, Repr

/-- The `setUserData` action creator from src/state/user/index.js. -/
def setUserData (userData : UserData) : UAction :=
  ⟨SET_USER_DATA, userData⟩

/-- `Object.assign({}, state, userData)`: a fresh object taking each field
from `userData` when present there, else from `state`. -/
def objectAssign (state : UserState) (u : UserData) : UserState :=
  ⟨u.id.getD state.id, u.firstName.getD state.firstName,
   u.lastName.getD state.lastName, u.username.getD state.username,
   u.email.getD state.email, u.role.getD state.role⟩

/-- The user reducer (default export of src/state/user/index.js): on
SET_USER_DATA merge the payload over the previous state into a fresh
object; on any other action return the input state unchanged. -/
def userReducer (state : UserState) (action : UAction) : UserState :=
  if action.type = SET_USER_DATA then objectAssign state action.userData
  else state

/-- The outcome of the promise created by the `signIn` thunk once the
2-second timer fires: either the dispatched action followed by resolution,
or rejection with an error message. -/
inductive SignInResult where
  | resolved (dispatched : UAction)
  | rejected (message : String)
deriving DecidableEq, Repr

/-- The hard-coded member record dispatched by `signIn` in
src/state/user/index.js. -/
def memberUserData : UserData :=
  ⟨some (some 1), some (some "Tom"), some (some "Jones"),
   some (some "tomjones"), some (some "tomjones@gmail.com"), some "MEMBER"⟩

/-- Credentials passed to `signIn`. -/
structure Credentials where
  username : String
  password : String
deriving DecidableEq, Repr

/-- The `signIn` thunk from src/state/user/index.js: unless the username is
the sentinel string `fail`, dispatch `setUserData` with the hard-coded user
record and resolve; otherwise reject with the fixed error message. -/
def signIn (credentials : Credentials) : SignInResult :=
  if credentials.username ≠ "fail" then
    .resolved (setUserData memberUserData)
  else
    .rejected "Username or password was invalid"

/-! ### The worked example of spec §8: entries A and B sharing C -/

/-- Example graph of spec §8: module 0 (entry A) and module 1 (entry B) both
depend on module 2 (C); identifiers code the paths A, B, C. -/
def gEx : ModuleGraph := ⟨[⟨0, [10], [2]⟩, ⟨1, [11], [2]⟩, ⟨2, [12], []⟩]⟩

/-- Example policy of spec §8: entries A and B, no explicit shared roots, no
dynamic boundaries; C lands in the shared chunk being referenced by both
entries. -/
def pEx : Policy := ⟨[], [0, 1], []⟩

/-- The chunks the partitioner produces for the §8 example. -/
def chunksEx : List Chunk :=
  [⟨.shared, .shared, [2]⟩, ⟨.entry 0, .entry, [0]⟩, ⟨.entry 1, .entry, [1]⟩]

/-- The shared chunk of the §8 example. -/
def sharedEx : Chunk := ⟨.shared, .shared, [2]⟩

/-- Entry chunk of entry point A in the §8 example. -/
def entryAEx : Chunk := ⟨.entry 0, .entry, [0]⟩

/-- Entry chunk of entry point B in the §8 example. -/
def entryBEx : Chunk := ⟨.entry 1, .entry, [1]⟩

/-- Example graph for C2: the modules of `gEx` listed in a different
file-system order. -/
def gExPerm : ModuleGraph := ⟨[⟨2, [12], []⟩, ⟨0, [10], [2]⟩, ⟨1, [11], [2]⟩]⟩

/-- Modelled from the spec: the Incremental Cache as persisted by a full
previous build that started from an empty cache (§4.4). -/
def buildCache (g : ModuleGraph) (chunks : List Chunk) : Cache :=
  (buildChunksCached (depsOf g) (digOf g) chunks [] chunks).2


/-! ### Helper lemmas: deterministic ordering and graph access -/

theorem sortedIds_perm (g : ModuleGraph) :
    (sortedIds g).Perm (g.modules.map SrcModule.id) :=
  List.perm_insertionSort _ _

theorem sortedIds_eq_of_perm {g g' : ModuleGraph}
    (h : g.modules.Perm g'.modules) : sortedIds g = sortedIds g' :=
  List.eq_of_perm_of_sorted
    (((sortedIds_perm g).trans (h.map SrcModule.id)).trans (sortedIds_perm g').symm)
    (List.sorted_insertionSort _ _) (List.sorted_insertionSort _ _)

theorem mem_sortedIds {g : ModuleGraph} {i : ModuleId} :
    i ∈ sortedIds g ↔ i ∈ g.modules.map SrcModule.id :=
  (sortedIds_perm g).mem_iff

theorem lookupMod_eq_of_perm {g g' : ModuleGraph}
    (h : g.modules.Perm g'.modules)
    (hn : (g.modules.map SrcModule.id).Nodup) :
    lookupMod g = lookupMod g' := by
  funext i
  unfold lookupMod
  rcases hfind : g'.modules.find? (fun m => m.id == i) with _ | m'
  · rw [hfind, List.find?_eq_none]
    rw [List.find?_eq_none] at hfind
    intro x hx
    exact hfind x (h.mem_iff.mp hx)
  · have hm' : m' ∈ g'.modules := List.mem_of_find?_eq_some hfind
    have hp := List.find?_some hfind
    have hmem : m' ∈ g.modules := h.mem_iff.mpr hm'
    have hsome : (g.modules.find? (fun m => m.id == i)).isSome := by
      rw [List.find?_isSome]
      exact ⟨m', hmem, hp⟩
    rcases hfind2 : g.modules.find? (fun m => m.id == i) with _ | m
    · rw [hfind2] at hsome; simp at hsome
    · have hm : m ∈ g.modules := List.mem_of_find?_eq_some hfind2
      have hpm := List.find?_some hfind2
      simp only [beq_iff_eq] at hp hpm
      have hmm : m = m' := List.inj_on_of_nodup_map hn hm hmem (hpm.trans hp.symm)
      rw [hfind, hfind2, hmm]

theorem graphFuel_eq_of_perm {g g' : ModuleGraph}
    (h : g.modules.Perm g'.modules) : graphFuel g = graphFuel g' :=
  h.length_eq

/-! ### Helper lemmas: content edits leave the graph structure unchanged -/

theorem lookupMod_edit (g : ModuleGraph) (mid : ModuleId) (newC : Bytes)
    (i : ModuleId) :
    lookupMod (editContent g mid newC) i =
      (lookupMod g i).map
        (fun m => if m.id = mid then ⟨m.id, newC, m.deps⟩ else m) := by
  unfold lookupMod editContent
  rw [List.find?_map]
  have hcomp : ((fun m : SrcModule => m.id == i) ∘
      fun m => if m.id = mid then (⟨m.id, newC, m.deps⟩ : SrcModule) else m) =
      fun m : SrcModule => m.id == i := by
    funext m
    by_cases h : m.id = mid <;> simp [h]
  rw [hcomp]

theorem sortedIds_edit (g : ModuleGraph) (mid : ModuleId) (newC : Bytes) :
    sortedIds (editContent g mid newC) = sortedIds g := by
  unfold sortedIds editContent
  congr 1
  simp only [List.map_map]
  apply List.map_eq_map_iff.mpr
  intro m _
  by_cases h : m.id = mid <;> simp [h]

theorem graphFuel_edit (g : ModuleGraph) (mid : ModuleId) (newC : Bytes) :
    graphFuel (editContent g mid newC) = graphFuel g := by
  unfold graphFuel editContent
  simp

theorem depsOf_edit (g : ModuleGraph) (mid : ModuleId) (newC : Bytes) :
    depsOf (editContent g mid newC) = depsOf g := by
  funext i
  unfold depsOf
  rw [lookupMod_edit]
  rcases lookupMod g i with _ | m
  · rfl
  · by_cases h : m.id = mid <;> simp [h]

theorem digOf_edit_ne (g : ModuleGraph) (mid : ModuleId) (newC : Bytes)
    (i : ModuleId) (hi : i ≠ mid) :
    digOf (editContent g mid newC) i = digOf g i := by
  unfold digOf
  rw [lookupMod_edit]
  rcases hl : lookupMod g i with _ | m
  · rfl
  · have hm : m.id = i := by
      have := List.find?_some hl
      simpa [beq_iff_eq] using this
    have : m.id ≠ mid := by rw [hm]; exact hi
    simp [this]

theorem digOf_self {g : ModuleGraph} {mid : ModuleId} {M : SrcModule}
    (h : lookupMod g mid = some M) : digOf g mid = M.content := by
  unfold digOf
  rw [h]
  rfl

theorem digOf_edit_self {g : ModuleGraph} {mid : ModuleId} {M : SrcModule}
    (newC : Bytes) (h : lookupMod g mid = some M) :
    digOf (editContent g mid newC) mid = newC := by
  unfold digOf
  rw [lookupMod_edit, h]
  have hm : M.id = mid := by
    have := List.find?_some h
    simpa [beq_iff_eq] using this
  simp [hm]

/-! ### Helper lemmas: the deterministic member order is a permutation -/

theorem topoNext_mem {D : ModuleId → List ModuleId} {rem : List ModuleId}
    {x : ModuleId} (h : topoNext D rem = some x) : x ∈ rem := by
  unfold topoNext at h
  rcases hf : rem.filter (fun i => !blockedIn D rem i) with _ | ⟨y, t⟩
  · rw [hf] at h
    exact List.mem_of_mem_head? (by simpa using h)
  · rw [hf] at h
    have : y ∈ rem.filter (fun i => !blockedIn D rem i) := by
      rw [hf]; exact List.mem_cons_self y t
    have hy : y ∈ rem := (List.mem_filter.mp this).1
    cases h
    exact hy

theorem topoNext_none {D : ModuleId → List ModuleId} {rem : List ModuleId}
    (h : topoNext D rem = none) : rem = [] := by
  unfold topoNext at h
  rcases hf : rem.filter (fun i => !blockedIn D rem i) with _ | ⟨y, t⟩
  · rw [hf] at h
    cases rem with
    | nil => rfl
    | cons a l => simp at h
  · rw [hf] at h
    cases h

theorem topoLexAux_perm (D : ModuleId → List ModuleId) :
    ∀ (n : Nat) (rem : List ModuleId), rem.length ≤ n →
      (topoLexAux D n rem).Perm rem := by
  intro n
  induction n with
  | zero =>
      intro rem hlen
      have : rem = [] := List.length_eq_zero.mp (Nat.le_zero.mp hlen)
      rw [this]
      exact List.Perm.refl _
  | succ n ih =>
      intro rem hlen
      unfold topoLexAux
      rcases hnext : topoNext D rem with _ | x
      · rw [topoNext_none hnext]
      · have hx : x ∈ rem := topoNext_mem hnext
        have hlen' : (rem.erase x).length ≤ n := by
          rw [List.length_erase_of_mem hx]
          omega
        have hperm : (topoLexAux D n (rem.erase x)).Perm (rem.erase x) :=
          ih (rem.erase x) hlen'
        exact ((hperm.cons x).trans (List.perm_cons_erase hx).symm)

theorem topoLex_perm (D : ModuleId → List ModuleId) (members : List ModuleId) :
    (topoLex D members).Perm members :=
  topoLexAux_perm D members.length members (Nat.le_refl _)

theorem mem_topoLex {D : ModuleId → List ModuleId} {members : List ModuleId}
    {i : ModuleId} : i ∈ topoLex D members ↔ i ∈ members :=
  (topoLex_perm D members).mem_iff

/-! ### Helper lemmas: the modelled digest is collision-free -/

theorem digestOf_contentD_ne_depsCons (m : List Bytes) (a b : Digest) :
    Digest.contentD m ≠ Digest.depsCons a b := by
  intro h
  cases h

theorem digestOf_inj {m1 m2 : List Bytes} {d1 d2 : List Digest}
    (h : digestOf m1 d1 = digestOf m2 d2) : m1 = m2 ∧ d1 = d2 := by
  induction d1 generalizing d2 with
  | nil =>
      cases d2 with
      | nil =>
          unfold digestOf at h
          simp only [List.foldr] at h
          cases h
          exact ⟨rfl, rfl⟩
      | cons x xs =>
          unfold digestOf at h
          simp only [List.foldr] at h
          cases h
  | cons x xs ih =>
      cases d2 with
      | nil =>
          unfold digestOf at h
          simp only [List.foldr] at h
          cases h
      | cons y ys =>
          unfold digestOf at h
          simp only [List.foldr] at h
          injection h with h1 h2
          have := @ih ys (by unfold digestOf; exact h2)
          exact ⟨this.1, by rw [h1, this.2]⟩

theorem map_ne_of_mem_ne {α β : Type} {l : List α} {f g : α → β} {x : α}
    (hx : x ∈ l) (hfg : f x ≠ g x) : l.map f ≠ l.map g := by
  intro h
  exact hfg (List.map_eq_map_iff.mp h x hx)

/-! ### Helper lemmas: chunk membership and disjointness of the partition -/

theorem mem_sharedChunk {univ : List ModuleId} {D : ModuleId → List ModuleId}
    {fuel : Nat} {p : Policy} {i : ModuleId} :
    i ∈ (sharedChunk univ D fuel p).members ↔
      i ∈ univ ∧ isShared D fuel p i = true := by
  unfold sharedChunk
  exact List.mem_filter

theorem mem_entryChunk {univ : List ModuleId} {D : ModuleId → List ModuleId}
    {fuel : Nat} {p : Policy} {e i : ModuleId} :
    i ∈ (entryChunk univ D fuel p e).members ↔
      i ∈ univ ∧ (reaches D fuel e i = true ∧ isShared D fuel p i = false) := by
  unfold entryChunk isEntryMember
  rw [List.mem_filter]
  simp [Bool.and_eq_true]

theorem mem_dynChunk {univ : List ModuleId} {D : ModuleId → List ModuleId}
    {fuel : Nat} {p : Policy} {k : List ModuleId} {i : ModuleId} :
    i ∈ (dynChunk univ D fuel p k).members ↔
      i ∈ univ ∧ dynKey D fuel p i = k := by
  unfold dynChunk
  rw [List.mem_filter]
  simp

theorem dynKeys_ne_nil {univ : List ModuleId} {D : ModuleId → List ModuleId}
    {fuel : Nat} {p : Policy} {k : List ModuleId}
    (h : k ∈ dynKeys univ D fuel p) : k ≠ [] := by
  unfold dynKeys at h
  rw [List.mem_dedup, List.mem_filter] at h
  intro hnil
  rw [hnil] at h
  simp at h

theorem dynKey_eq_nil_of_isShared {D : ModuleId → List ModuleId} {fuel : Nat}
    {p : Policy} {i : ModuleId} (h : isShared D fuel p i = true) :
    dynKey D fuel p i = [] := by
  unfold dynKey
  rw [h]
  simp

theorem dynKey_eq_nil_of_entry {D : ModuleId → List ModuleId} {fuel : Nat}
    {p : Policy} {e i : ModuleId} (he : e ∈ p.entryPoints)
    (hr : reaches D fuel e i = true) : dynKey D fuel p i = [] := by
  unfold dynKey
  have hany : p.entryPoints.any (fun e => reaches D fuel e i) = true :=
    List.any_eq_true.mpr ⟨e, he, hr⟩
  rw [hany]
  simp

theorem two_le_length_of_two_mem {α : Type} {l : List α} {a b : α}
    (hab : a ≠ b) (ha : a ∈ l) (hb : b ∈ l) : 2 ≤ l.length := by
  match l with
  | [] => cases ha
  | [x] =>
      rw [List.mem_singleton] at ha hb
      exact absurd (ha.trans hb.symm) hab
  | x :: y :: t => simp

theorem isShared_of_two_entries {D : ModuleId → List ModuleId} {fuel : Nat}
    {p : Policy} {e1 e2 i : ModuleId} (he1 : e1 ∈ p.entryPoints)
    (he2 : e2 ∈ p.entryPoints) (hne : e1 ≠ e2)
    (hr1 : reaches D fuel e1 i = true) (hr2 : reaches D fuel e2 i = true) :
    isShared D fuel p i = true := by
  unfold isShared
  apply Bool.or_eq_true_iff.mpr
  right
  have h1 : e1 ∈ entriesReaching D fuel p i := by
    unfold entriesReaching
    exact List.mem_filter.mpr ⟨he1, hr1⟩
  have h2 : e2 ∈ entriesReaching D fuel p i := by
    unfold entriesReaching
    exact List.mem_filter.mpr ⟨he2, hr2⟩
  simpa using two_le_length_of_two_mem hne h1 h2

theorem partitionCore_ok {univ : List ModuleId} {D : ModuleId → List ModuleId}
    {fuel : Nat} {p : Policy} {chunks : List Chunk}
    (h : partitionCore univ D fuel p = .ok chunks) :
    chunks =
      sharedChunk univ D fuel (canonPolicy p)
        :: ((canonPolicy p).entryPoints.map (entryChunk univ D fuel (canonPolicy p))
            ++ (dynKeys univ D fuel (canonPolicy p)).map
                 (dynChunk univ D fuel (canonPolicy p))) := by
  unfold partitionCore at h
  split at h
  · cases h
  · injection h with h
    exact h.symm

theorem mem_partition_cases {univ : List ModuleId}
    {D : ModuleId → List ModuleId} {fuel : Nat} {p' : Policy} {c : Chunk}
    (hc : c ∈ sharedChunk univ D fuel p'
            :: (p'.entryPoints.map (entryChunk univ D fuel p')
                ++ (dynKeys univ D fuel p').map (dynChunk univ D fuel p'))) :
    c = sharedChunk univ D fuel p' ∨
      (∃ e, e ∈ p'.entryPoints ∧ c = entryChunk univ D fuel p' e) ∨
      (∃ k, k ∈ dynKeys univ D fuel p' ∧ c = dynChunk univ D fuel p' k) := by
  rcases List.mem_cons.mp hc with h | h
  · exact Or.inl h
  · rcases List.mem_append.mp h with h | h
    · rcases List.mem_map.mp h with ⟨e, he, hce⟩
      exact Or.inr (Or.inl ⟨e, he, hce.symm⟩)
    · rcases List.mem_map.mp h with ⟨k, hk, hck⟩
      exact Or.inr (Or.inr ⟨k, hk, hck.symm⟩)

theorem partition_disjoint {univ : List ModuleId}
    {D : ModuleId → List ModuleId} {fuel : Nat} {p : Policy}
    {chunks : List Chunk} (hok : partitionCore univ D fuel p = .ok chunks) :
    ∀ c1, c1 ∈ chunks → ∀ c2, c2 ∈ chunks → c1 ≠ c2 →
      ∀ i, i ∈ c1.members → i ∉ c2.members := by
  have hchunks := partitionCore_ok hok
  subst hchunks
  intro c1 hc1 c2 hc2 hne i hi1 hi2
  rcases mem_partition_cases hc1 with h1 | ⟨e1, he1, h1⟩ | ⟨k1, hk1, h1⟩ <;>
    rcases mem_partition_cases hc2 with h2 | ⟨e2, he2, h2⟩ | ⟨k2, hk2, h2⟩
  · exact hne (h1.trans h2.symm)
  · rw [h1] at hi1
    rw [h2] at hi2
    have f1 := (mem_sharedChunk.mp hi1).2
    have f2 := (mem_entryChunk.mp hi2).2.2
    rw [f1] at f2
    cases f2
  · rw [h1] at hi1
    rw [h2] at hi2
    have f1 := (mem_sharedChunk.mp hi1).2
    have f2 := (mem_dynChunk.mp hi2).2
    have := dynKey_eq_nil_of_isShared f1
    exact dynKeys_ne_nil hk2 (f2.symm.trans this)
  · rw [h1] at hi1
    rw [h2] at hi2
    have f1 := (mem_entryChunk.mp hi1).2.2
    have f2 := (mem_sharedChunk.mp hi2).2
    rw [f2] at f1
    cases f1
  · have hee : e1 ≠ e2 := by
      intro h
      rw [h] at h1
      exact hne (h1.trans h2.symm)
    rw [h1] at hi1
    rw [h2] at hi2
    have f1 := (mem_entryChunk.mp hi1).2
    have f2 := (mem_entryChunk.mp hi2).2
    have := isShared_of_two_entries he1 he2 hee f1.1 f2.1
    rw [f1.2] at this
    cases this
  · rw [h1] at hi1
    rw [h2] at hi2
    have f1 := (mem_entryChunk.mp hi1).2
    have f2 := (mem_dynChunk.mp hi2).2
    have := dynKey_eq_nil_of_entry he1 f1.1
    exact dynKeys_ne_nil hk2 (f2.symm.trans this)
  · rw [h1] at hi1
    rw [h2] at hi2
    have f1 := (mem_dynChunk.mp hi1).2
    have f2 := (mem_sharedChunk.mp hi2).2
    have := dynKey_eq_nil_of_isShared f2
    exact dynKeys_ne_nil hk1 (f1.symm.trans this)
  · rw [h1] at hi1
    rw [h2] at hi2
    have f1 := (mem_dynChunk.mp hi1).2
    have f2 := (mem_entryChunk.mp hi2).2
    have := dynKey_eq_nil_of_entry he2 f2.1
    exact dynKeys_ne_nil hk1 (f1.symm.trans this)
  · rw [h1] at hi1
    rw [h2] at hi2
    have f1 := (mem_dynChunk.mp hi1).2
    have f2 := (mem_dynChunk.mp hi2).2
    have hkk : k1 = k2 := f1.symm.trans f2
    rw [hkk] at h1
    exact hne (h1.trans h2.symm)

/-! ### Helper lemmas: stability of chunk identities under a content edit -/

theorem memberDigests_congr {D : ModuleId → List ModuleId}
    {dig dig' : ModuleId → Bytes} {c : Chunk}
    (h : ∀ i, i ∈ c.members → dig' i = dig i) :
    memberDigests D dig' c = memberDigests D dig c := by
  unfold memberDigests
  apply List.map_eq_map_iff.mpr
  intro i hi
  exact h i (mem_topoLex.mp hi)

theorem chunkIdentityAux_stable {D : ModuleId → List ModuleId}
    {dig dig' : ModuleId → Bytes} {chunks : List Chunk} {mid : ModuleId}
    {A : Chunk} (hdig : ∀ j, j ≠ mid → dig' j = dig j)
    (hdisj : ∀ c1, c1 ∈ chunks → ∀ c2, c2 ∈ chunks → c1 ≠ c2 →
      ∀ i, i ∈ c1.members → i ∉ c2.members)
    (hA : A ∈ chunks) (hmidA : mid ∈ A.members) :
    ∀ (n : Nat) (c : Chunk), c ∈ chunks → mid ∉ c.members →
      dependsOn D chunks n c A = false →
      chunkIdentityAux D dig' chunks n c = chunkIdentityAux D dig chunks n c := by
  intro n
  induction n with
  | zero =>
      intro c _ hmid _
      unfold chunkIdentityAux
      rw [memberDigests_congr (fun i hi => hdig i (fun he => hmid (he ▸ hi)))]
  | succ n ih =>
      intro c hc hmid hdep
      unfold chunkIdentityAux
      rw [memberDigests_congr (fun i hi => hdig i (fun he => hmid (he ▸ hi)))]
      congr 1
      apply List.map_eq_map_iff.mpr
      intro d hd
      have hdchunks : d ∈ chunks := List.mem_of_mem_filter hd
      have hdprop : (d == A || dependsOn D chunks n d A) = false := by
        unfold dependsOn at hdep
        have := List.any_eq_false.mp hdep d hd
        simpa using this
      have hdA : d ≠ A := by
        intro h
        rw [h] at hdprop
        simp at hdprop
      have hddep : dependsOn D chunks n d A = false := by
        rcases Bool.or_eq_false_iff.mp hdprop with ⟨_, h2⟩
        exact h2
      have hdmid : mid ∉ d.members :=
        hdisj A hA d hdchunks (fun h => hdA h.symm) mid hmidA
      exact ih d hdchunks hdmid hddep

theorem chunkIdentityAux_changed {D : ModuleId → List ModuleId}
    {dig dig' : ModuleId → Bytes} {chunks : List Chunk} {mid : ModuleId}
    {A : Chunk} (hne : dig' mid ≠ dig mid) (hmidA : mid ∈ A.members) :
    ∀ n : Nat,
      chunkIdentityAux D dig' chunks n A ≠ chunkIdentityAux D dig chunks n A := by
  have hmem : mid ∈ topoLex D A.members := mem_topoLex.mpr hmidA
  have hmd : memberDigests D dig' A ≠ memberDigests D dig A := by
    unfold memberDigests
    exact map_ne_of_mem_ne hmem hne
  intro n
  cases n with
  | zero =>
      intro h
      unfold chunkIdentityAux at h
      exact hmd (digestOf_inj h).1
  | succ n =>
      intro h
      unfold chunkIdentityAux at h
      exact hmd (digestOf_inj h).1

/-- C1: stability of unchanged chunks.  If a rebuild changes the content of
exactly one module `mid` belonging to chunk `A`, the partition is unchanged,
every chunk that neither contains the edited module nor transitively
depends on `A` keeps its ChunkIdentity byte for byte, and (for an actual
content change) the chunk containing the edited module receives a new
identity. -/
theorem stability_of_unchanged_chunks
    (g : ModuleGraph) (p : Policy) (mid : ModuleId) (newC : Bytes)
    (chunks : List Chunk) (A : Chunk) (M : SrcModule)
    (hok : partitionOf g p = .ok chunks)
    (hM : lookupMod g mid = some M)
    (hA : A ∈ chunks) (hmidA : mid ∈ A.members) :
    partitionOf (editContent g mid newC) p = .ok chunks ∧
    (∀ c, c ∈ chunks → mid ∉ c.members →
      dependsOn (depsOf g) chunks chunks.length c A = false →
      chunkIdentityOf (editContent g mid newC) chunks c =
        chunkIdentityOf g chunks c) ∧
    (newC ≠ M.content →
      chunkIdentityOf (editContent g mid newC) chunks A ≠
        chunkIdentityOf g chunks A) := by
  have hdisj := partition_disjoint hok
  have hdig : ∀ j, j ≠ mid → digOf (editContent g mid newC) j = digOf g j :=
    fun j hj => digOf_edit_ne g mid newC j hj
  refine ⟨?_, ?_, ?_⟩
  · unfold partitionOf
    rw [sortedIds_edit, depsOf_edit, graphFuel_edit]
    exact hok
  · intro c hc hmid hdep
    unfold chunkIdentityOf chunkIdentity
    rw [depsOf_edit]
    exact chunkIdentityAux_stable hdig hdisj hA hmidA chunks.length c hc hmid hdep
  · intro hnew
    unfold chunkIdentityOf chunkIdentity
    rw [depsOf_edit]
    have hne : digOf (editContent g mid newC) mid ≠ digOf g mid := by
      rw [digOf_edit_self newC hM, digOf_self hM]
      exact hnew
    exact chunkIdentityAux_changed hne hmidA chunks.length

/-- Witness for C1 on the §8 example: editing A's content changes the
identity of A's entry chunk only; the shared chunk and B's entry chunk keep
their identities across the rebuild. -/
theorem stability_of_unchanged_chunks_witness :
    partitionOf (editContent gEx 0 [99]) pEx = .ok chunksEx ∧
    chunkIdentityOf (editContent gEx 0 [99]) chunksEx sharedEx =
      chunkIdentityOf gEx chunksEx sharedEx ∧
    chunkIdentityOf (editContent gEx 0 [99]) chunksEx entryBEx =
      chunkIdentityOf gEx chunksEx entryBEx ∧
    chunkIdentityOf (editContent gEx 0 [99]) chunksEx entryAEx ≠
      chunkIdentityOf gEx chunksEx entryAEx := by
  have T := stability_of_unchanged_chunks gEx pEx 0 [99] chunksEx entryAEx
    ⟨0, [10], [2]⟩ (by decide) (by decide) (by decide) (by decide)
  exact ⟨T.1,
    T.2.1 sharedEx (by decide) (by decide) (by decide),
    T.2.1 entryBEx (by decide) (by decide) (by decide),
    T.2.2 (by decide)⟩

/-- C2: build determinism.  The build is a pure function of the Module
Graph and policy, and its artifacts (output bytes, ChunkIdentities, and the
manifest entries) do not depend on the order in which the module list is
supplied (file-system enumeration order / insertion order); module
identities are the stable module names, never nondeterministic id
assignment. -/
theorem build_determinism (g g' : ModuleGraph) (p : Policy) (meta : String)
    (hperm : g.modules.Perm g'.modules)
    (hn : (g.modules.map SrcModule.id).Nodup) :
    runBuild g p meta = runBuild g' p meta := by
  unfold runBuild orchestrate
  have h1 := sortedIds_eq_of_perm hperm
  have h2 : depsOf g = depsOf g' := by
    funext i
    unfold depsOf
    rw [lookupMod_eq_of_perm hperm hn]
  have h3 : digOf g = digOf g' := by
    funext i
    unfold digOf
    rw [lookupMod_eq_of_perm hperm hn]
  have h4 := graphFuel_eq_of_perm hperm
  rw [h1, h2, h3, h4]

/-- Witness for C2: the §8 example graph built from two different
enumeration orders of the same modules produces identical build results. -/
theorem build_determinism_witness :
    runBuild gEx pEx "m" = runBuild gExPerm pEx "m" :=
  build_determinism gEx gExPerm pEx "m" (by decide) (by decide)

/-- C3: manifest exclusion.  The Manifest's own identity and metadata feed
into no chunk's identity: two builds that differ only in the metadata
embedded in the Manifest produce the same artifacts (hence the same
ChunkIdentity for every vendor, entry, shared and dynamic chunk), the same
per-entry identity lists in the Manifest, and the same cache; only the
manifest metadata itself differs. -/
theorem manifest_exclusion (g : ModuleGraph) (p : Policy) (cache : Cache)
    (m1 m2 : String) :
    (orchestrate cache g p m1).map (fun rc => rc.1.artifacts) =
      (orchestrate cache g p m2).map (fun rc => rc.1.artifacts) ∧
    (orchestrate cache g p m1).map (fun rc => rc.1.manifest.entries) =
      (orchestrate cache g p m2).map (fun rc => rc.1.manifest.entries) ∧
    (orchestrate cache g p m1).map (fun rc => rc.2) =
      (orchestrate cache g p m2).map (fun rc => rc.2) := by
  unfold orchestrate orchestrateCore
  cases hpart : partitionCore (sortedIds g) (depsOf g) (graphFuel g) p with
  | error e => exact ⟨rfl, rfl, rfl⟩
  | ok chunks => exact ⟨rfl, rfl, rfl⟩

/-- C4: no duplication / shared-chunk uniqueness.  The partition has exactly
one shared chunk; every module reachable from the declared shared/vendor
roots or referenced by two or more entry points lies in that shared chunk
and in no other chunk; and in general no module is a member of two
different chunks of the partition. -/
theorem no_duplication (g : ModuleGraph) (p : Policy) (chunks : List Chunk)
    (i : ModuleId) (hok : partitionOf g p = .ok chunks) :
    (sharedChunk (sortedIds g) (depsOf g) (graphFuel g) (canonPolicy p) ∈ chunks ∧
     ∀ c, c ∈ chunks → c.kind = .shared →
       c = sharedChunk (sortedIds g) (depsOf g) (graphFuel g) (canonPolicy p)) ∧
    (i ∈ g.modules.map SrcModule.id →
      (reachesFromAny (depsOf g) (graphFuel g)
          (canonPolicy p).sharedModuleNames i = true ∨
       2 ≤ (entriesReaching (depsOf g) (graphFuel g) (canonPolicy p) i).length) →
      i ∈ (sharedChunk (sortedIds g) (depsOf g) (graphFuel g) (canonPolicy p)).members ∧
      ∀ c, c ∈ chunks → i ∈ c.members →
        c = sharedChunk (sortedIds g) (depsOf g) (graphFuel g) (canonPolicy p)) ∧
    (∀ c1, c1 ∈ chunks → ∀ c2, c2 ∈ chunks →
      i ∈ c1.members → i ∈ c2.members → c1 = c2) := by
  have hdisj := partition_disjoint hok
  have hchunks := partitionCore_ok hok
  have hsharedmem :
      sharedChunk (sortedIds g) (depsOf g) (graphFuel g) (canonPolicy p) ∈ chunks := by
    rw [hchunks]
    exact List.mem_cons_self _ _
  refine ⟨⟨hsharedmem, ?_⟩, ?_, ?_⟩
  · intro c hc hkind
    rcases mem_partition_cases (hchunks ▸ hc) with h | ⟨e, _, h⟩ | ⟨k, _, h⟩
    · exact h
    · rw [h] at hkind
      cases hkind
    · rw [h] at hkind
      cases hkind
  · intro hmem hcause
    have hish : isShared (depsOf g) (graphFuel g) (canonPolicy p) i = true := by
      unfold isShared
      apply Bool.or_eq_true_iff.mpr
      rcases hcause with h | h
      · exact Or.inl h
      · right
        simpa using h
    have hiuniv : i ∈ sortedIds g := mem_sortedIds.mpr hmem
    have hin : i ∈ (sharedChunk (sortedIds g) (depsOf g) (graphFuel g)
        (canonPolicy p)).members := mem_sharedChunk.mpr ⟨hiuniv, hish⟩
    refine ⟨hin, ?_⟩
    intro c hc hic
    by_contra hne
    exact hdisj c hc _ hsharedmem hne i hic hin
  · intro c1 hc1 c2 hc2 hi1 hi2
    by_contra hne
    exact hdisj c1 hc1 c2 hc2 hne i hi1 hi2

/-- Witness for C4 on the §8 example: module C (id 2) is referenced by both
entries, lands exactly in the shared chunk, and no module of the example is
duplicated across chunks. -/
theorem no_duplication_witness :
    2 ∈ (sharedChunk (sortedIds gEx) (depsOf gEx) (graphFuel gEx)
      (canonPolicy pEx)).members ∧
    (∀ c, c ∈ chunksEx → 2 ∈ c.members →
      c = sharedChunk (sortedIds gEx) (depsOf gEx) (graphFuel gEx)
        (canonPolicy pEx)) ∧
    (∀ c1, c1 ∈ chunksEx → ∀ c2, c2 ∈ chunksEx →
      2 ∈ c1.members → 2 ∈ c2.members → c1 = c2) := by
  have T := no_duplication gEx pEx chunksEx 2 (by decide)
  have hsh := T.2.1 (by decide) (by decide)
  exact ⟨hsh.1, hsh.2, T.2.2⟩

/-! ### Helper lemmas: the orchestrator emits exactly the partition's chunks -/

theorem buildChunkCached_chunk (cache : Cache) (D : ModuleId → List ModuleId)
    (dig : ModuleId → Bytes) (chunks : List Chunk) (c : Chunk) :
    (buildChunkCached cache D dig chunks c).1.chunk = c := by
  unfold buildChunkCached
  cases cacheLookup cache (chunkKey dig c) with
  | none => rfl
  | some e => rfl

theorem buildChunksCached_chunks (D : ModuleId → List ModuleId)
    (dig : ModuleId → Bytes) (chunks : List Chunk) :
    ∀ (cs : List Chunk) (cache : Cache),
      ((buildChunksCached D dig chunks cache cs).1.map
        (fun af => af.1.chunk)) = cs := by
  intro cs
  induction cs with
  | nil => intro cache; rfl
  | cons c rest ih =>
      intro cache
      unfold buildChunksCached
      simp only [List.map_cons]
      rw [buildChunkCached_chunk, ih]

/-- C5: atomic publish and abort safety.  One build either aborts on a
`GraphError`, leaving the previously published artifacts and the cache
untouched, or it publishes the complete new BuildResult: one artifact for
every chunk of the partition, together with its Manifest — never a partial
set of artifacts. -/
theorem atomic_publish (disk : Option BuildResult) (cache : Cache)
    (g : ModuleGraph) (p : Policy) (meta : String) :
    (∃ e, orchestrate cache g p meta = .error e ∧
      publish disk cache g p meta = (disk, cache) ∧
      partitionOf g p = .error e) ∨
    (∃ r c' chunks, orchestrate cache g p meta = .ok (r, c') ∧
      publish disk cache g p meta = (some r, c') ∧
      partitionOf g p = .ok chunks ∧
      r.artifacts.map Artifact.chunk = chunks) := by
  unfold publish orchestrate orchestrateCore partitionOf
  cases hpart : partitionCore (sortedIds g) (depsOf g) (graphFuel g) p with
  | error e =>
      left
      exact ⟨e, rfl, rfl, rfl⟩
  | ok chunks =>
      right
      refine ⟨_, _, chunks, rfl, rfl, rfl, ?_⟩
      simp only [List.map_map]
      exact buildChunksCached_chunks (depsOf g) (digOf g) chunks chunks cache

/-! ### Helper lemmas: the emission order picks lexically smallest ready module -/

theorem topoNext_lex {D : ModuleId → List ModuleId} {rem : List ModuleId}
    {x : ModuleId} (hs : List.Sorted (· ≤ ·) rem)
    (h : topoNext D rem = some x) :
    x ∈ rem ∧
      ((blockedIn D rem x = false ∧
        ∀ y, y ∈ rem → blockedIn D rem y = false → x ≤ y) ∨
       (∀ y, y ∈ rem → blockedIn D rem y = true)) := by
  refine ⟨topoNext_mem h, ?_⟩
  unfold topoNext at h
  rcases hf : rem.filter (fun i => !blockedIn D rem i) with _ | ⟨z, t⟩
  · right
    intro y hy
    by_contra hb
    have hyf : y ∈ rem.filter (fun i => !blockedIn D rem i) :=
      List.mem_filter.mpr ⟨hy, by simp [Bool.eq_false_iff.mpr hb]⟩
    rw [hf] at hyf
    cases hyf
  · left
    rw [hf] at h
    injection h with h
    rw [← h]
    have hxf : z ∈ rem.filter (fun i => !blockedIn D rem i) := by
      rw [hf]
      exact List.mem_cons_self _ _
    have hxblocked : blockedIn D rem z = false := by
      have := (List.mem_filter.mp hxf).2
      simpa using this
    refine ⟨hxblocked, ?_⟩
    intro y hy hyb
    have hyf : y ∈ rem.filter (fun i => !blockedIn D rem i) :=
      List.mem_filter.mpr ⟨hy, by simp [hyb]⟩
    rw [hf] at hyf
    have hsorted : List.Sorted (· ≤ ·) (rem.filter (fun i => !blockedIn D rem i)) :=
      hs.filter _
    rw [hf] at hsorted
    rcases List.mem_cons.mp hyf with h | h
    · rw [h]
    · exact (List.rel_of_sorted_cons hsorted) y h

/-- C6: the Content Hasher algorithm.  `identity(chunk, depIdentities)`
digests exactly (a) the member content digests taken in the fixed
deterministic order — the `topoLex` order, a permutation of the members in
which the next module emitted is always the lexically smallest one whose
in-chunk dependencies have all been emitted (falling back to the lexically
smallest member only when every remaining member is blocked by a cycle) —
and (b) the identities of the chunks it statically depends on, each
computed at the lower recursion stage, so leaf chunks (no chunk
dependencies) digest their member content alone; and the resulting
identity is independent of the insertion order of the module list. -/
theorem content_hasher_algorithm (g g' : ModuleGraph) (chunks : List Chunk)
    (c : Chunk) (n : Nat) :
    (chunkIdentityAux (depsOf g) (digOf g) chunks (n+1) c =
      digestOf (memberDigests (depsOf g) (digOf g) c)
        ((chunkDepsOf (depsOf g) chunks c).map
          (chunkIdentityAux (depsOf g) (digOf g) chunks n))) ∧
    (memberDigests (depsOf g) (digOf g) c =
        (topoLex (depsOf g) c.members).map (digOf g) ∧
      (topoLex (depsOf g) c.members).Perm c.members) ∧
    (chunkDepsOf (depsOf g) chunks c = [] →
      chunkIdentityAux (depsOf g) (digOf g) chunks n c =
        digestOf (memberDigests (depsOf g) (digOf g) c) []) ∧
    (∀ rem x, List.Sorted (· ≤ ·) rem →
      topoNext (depsOf g) rem = some x →
      x ∈ rem ∧
        ((blockedIn (depsOf g) rem x = false ∧
          ∀ y, y ∈ rem → blockedIn (depsOf g) rem y = false → x ≤ y) ∨
         (∀ y, y ∈ rem → blockedIn (depsOf g) rem y = true))) ∧
    (g.modules.Perm g'.modules → (g.modules.map SrcModule.id).Nodup →
      chunkIdentityOf g chunks c = chunkIdentityOf g' chunks c) := by
  refine ⟨rfl, ⟨rfl, topoLex_perm _ _⟩, ?_, ?_, ?_⟩
  · intro h
    cases n with
    | zero => rfl
    | succ n =>
        unfold chunkIdentityAux
        rw [h]
        rfl
  · intro rem x hs h
    exact topoNext_lex hs h
  · intro hperm hn
    unfold chunkIdentityOf chunkIdentity
    have h2 : depsOf g = depsOf g' := by
      funext i
      unfold depsOf
      rw [lookupMod_eq_of_perm hperm hn]
    have h3 : digOf g = digOf g' := by
      funext i
      unfold digOf
      rw [lookupMod_eq_of_perm hperm hn]
    rw [h2, h3]

/-- Witness for C6 on the §8 example: the hasher equation, the permutation
property, the leaf case for the shared chunk, the lexical pick on a
concrete sorted worklist, and the insertion-order independence of A's
chunk identity. -/
theorem content_hasher_algorithm_witness :
    (chunkIdentityAux (depsOf gEx) (digOf gEx) chunksEx 3 entryAEx =
      digestOf (memberDigests (depsOf gEx) (digOf gEx) entryAEx)
        ((chunkDepsOf (depsOf gEx) chunksEx entryAEx).map
          (chunkIdentityAux (depsOf gEx) (digOf gEx) chunksEx 2))) ∧
    (topoLex (depsOf gEx) entryAEx.members).Perm entryAEx.members ∧
    (chunkIdentityAux (depsOf gEx) (digOf gEx) chunksEx 2 sharedEx =
      digestOf (memberDigests (depsOf gEx) (digOf gEx) sharedEx) []) ∧
    (0 ∈ ([0, 1] : List ModuleId) ∧
      ((blockedIn (depsOf gEx) [0, 1] 0 = false ∧
        ∀ y, y ∈ ([0, 1] : List ModuleId) →
          blockedIn (depsOf gEx) [0, 1] y = false → 0 ≤ y) ∨
       (∀ y, y ∈ ([0, 1] : List ModuleId) →
          blockedIn (depsOf gEx) [0, 1] y = true))) ∧
    chunkIdentityOf gEx chunksEx entryAEx =
      chunkIdentityOf gExPerm chunksEx entryAEx := by
  have T := content_hasher_algorithm gEx gExPerm chunksEx entryAEx 2
  have T2 := content_hasher_algorithm gEx gExPerm chunksEx sharedEx 2
  exact ⟨T.1, T.2.1.2, T2.2.2.1 (by decide),
    T.2.2.2.1 [0, 1] 0 (by decide) (by decide),
    T.2.2.2.2 (by decide) (by decide)⟩

/-! ### Helper lemmas: Incremental Cache behaviour -/

theorem cacheStore_of_hit {cache : Cache} {k : Multiset Bytes} {e : CacheEntry}
    (h : cacheLookup cache k = some e) (b : Bytes) (ident : Digest) :
    cacheStore cache k b ident = cache := by
  unfold cacheStore
  rw [h]

theorem mem_cacheStore {cache : Cache} {k : Multiset Bytes} {b : Bytes}
    {ident : Digest} {e : CacheEntry} (h : e ∈ cacheStore cache k b ident) :
    e ∈ cache ∨ e = ⟨k, b, ident⟩ := by
  unfold cacheStore at h
  cases hl : cacheLookup cache k with
  | some e0 =>
      rw [hl] at h
      exact Or.inl h
  | none =>
      rw [hl] at h
      rcases List.mem_cons.mp h with h | h
      · exact Or.inr h
      · exact Or.inl h

theorem cacheLookup_key {cache : Cache} {k : Multiset Bytes} {e : CacheEntry}
    (h : cacheLookup cache k = some e) : e.key = k := by
  unfold cacheLookup at h
  have := List.find?_some h
  simpa using this

theorem cacheLookup_mem {cache : Cache} {k : Multiset Bytes} {e : CacheEntry}
    (h : cacheLookup cache k = some e) : e ∈ cache :=
  List.mem_of_find?_eq_some h

theorem cacheStore_preserve {cache : Cache} {k k' : Multiset Bytes}
    {b : Bytes} {ident : Digest} {e : CacheEntry}
    (h : cacheLookup cache k = some e) :
    cacheLookup (cacheStore cache k' b ident) k = some e := by
  unfold cacheStore
  cases hl : cacheLookup cache k' with
  | some e0 => exact h
  | none =>
      unfold cacheLookup
      have hne : ((⟨k', b, ident⟩ : CacheEntry).key == k) = false := by
        apply beq_eq_false_iff_ne.mpr
        intro hkk
        have hk2 : k' = k := hkk
        rw [hk2] at hl
        rw [hl] at h
        cases h
      rw [List.find?_cons_of_neg _ (by simp [hne])]
      exact h

theorem cacheStore_self_present (cache : Cache) (k : Multiset Bytes)
    (b : Bytes) (ident : Digest) :
    (cacheLookup (cacheStore cache k b ident) k).isSome := by
  unfold cacheStore
  cases hl : cacheLookup cache k with
  | some e0 => rw [hl]; rfl
  | none =>
      unfold cacheLookup
      rw [List.find?_cons_of_pos _ (by simp)]
      rfl

theorem buildChunksCached_preserve (D : ModuleId → List ModuleId)
    (dig : ModuleId → Bytes) (chunks : List Chunk) :
    ∀ (cs : List Chunk) (cache : Cache) (k : Multiset Bytes) (e : CacheEntry),
      cacheLookup cache k = some e →
      cacheLookup (buildChunksCached D dig chunks cache cs).2 k = some e := by
  intro cs
  induction cs with
  | nil => intro cache k e h; exact h
  | cons c rest ih =>
      intro cache k e h
      unfold buildChunksCached
      exact ih _ k e (cacheStore_preserve h)

theorem buildChunksCached_key_present (D : ModuleId → List ModuleId)
    (dig : ModuleId → Bytes) (chunks : List Chunk) :
    ∀ (cs : List Chunk) (cache : Cache) (c : Chunk), c ∈ cs →
      (cacheLookup (buildChunksCached D dig chunks cache cs).2
        (chunkKey dig c)).isSome := by
  intro cs
  induction cs with
  | nil => intro cache c h; cases h
  | cons c0 rest ih =>
      intro cache c hc
      unfold buildChunksCached
      rcases List.mem_cons.mp hc with h | h
      · subst h
        have hp := cacheStore_self_present cache (chunkKey dig c)
          (buildChunkCached cache D dig chunks c).1.bytes
          (buildChunkCached cache D dig chunks c).1.ident
        rcases hsome : cacheLookup (cacheStore cache (chunkKey dig c)
            (buildChunkCached cache D dig chunks c).1.bytes
            (buildChunkCached cache D dig chunks c).1.ident)
            (chunkKey dig c) with _ | e
        · rw [hsome] at hp
          cases hp
        · rw [buildChunksCached_preserve D dig chunks rest _ _ e hsome]
          rfl
      · exact ih _ c h

theorem buildChunksCached_entries (D : ModuleId → List ModuleId)
    (dig : ModuleId → Bytes) (chunks : List Chunk) :
    ∀ (cs : List Chunk) (cache : Cache) (e : CacheEntry),
      e ∈ (buildChunksCached D dig chunks cache cs).2 →
      e ∈ cache ∨ ∃ c, c ∈ cs ∧
        e = ⟨chunkKey dig c, serializeChunk D dig c,
             chunkIdentity D dig chunks c⟩ := by
  intro cs
  induction cs with
  | nil => intro cache e h; exact Or.inl h
  | cons c rest ih =>
      intro cache e h
      unfold buildChunksCached at h
      rcases ih _ e h with h' | ⟨c0, hc0, he⟩
      · rcases hl : cacheLookup cache (chunkKey dig c) with _ | e0
        · unfold buildChunkCached at h'
          rw [hl] at h'
          rcases mem_cacheStore h' with h'' | he
          · exact Or.inl h''
          · exact Or.inr ⟨c, List.mem_cons_self _ _, he⟩
        · rw [cacheStore_of_hit hl] at h'
          exact Or.inl h'
      · exact Or.inr ⟨c0, List.mem_cons_of_mem _ hc0, he⟩

/-- C7: incremental cache correctness.  If the multiset of module content
digests of a chunk equals the key some chunk of a previous build was stored
under, then the lookup against that build's cache hits, the orchestrator
reuses the cached output bytes and ChunkIdentity verbatim with the
recompute flag `false`, and the entry's bytes and identity are exactly the
ones the previous build computed and stored for that key. -/
theorem incremental_cache_correctness (g0 g : ModuleGraph) (p0 : Policy)
    (chunks0 chunks : List Chunk) (c c0 : Chunk)
    (_hok0 : partitionOf g0 p0 = .ok chunks0)
    (hc0 : c0 ∈ chunks0)
    (hkey : chunkKey (digOf g) c = chunkKey (digOf g0) c0) :
    ∃ e, cacheLookup (buildCache g0 chunks0) (chunkKey (digOf g) c) = some e ∧
      buildChunkCached (buildCache g0 chunks0) (depsOf g) (digOf g) chunks c =
        (⟨c, e.ident, e.bytes⟩, false) ∧
      ∃ c1, c1 ∈ chunks0 ∧
        e.key = chunkKey (digOf g0) c1 ∧
        e.ident = chunkIdentityOf g0 chunks0 c1 ∧
        e.bytes = serializeChunk (depsOf g0) (digOf g0) c1 := by
  have hp : (cacheLookup (buildCache g0 chunks0) (chunkKey (digOf g) c)).isSome := by
    unfold buildCache
    rw [hkey]
    exact buildChunksCached_key_present _ _ _ chunks0 [] c0 hc0
  rcases hsome : cacheLookup (buildCache g0 chunks0) (chunkKey (digOf g) c)
    with _ | e
  · rw [hsome] at hp
    cases hp
  · refine ⟨e, rfl, ?_, ?_⟩
    · unfold buildChunkCached
      rw [hsome]
    · have hmem : e ∈ buildCache g0 chunks0 := cacheLookup_mem hsome
      have hprov := buildChunksCached_entries (depsOf g0) (digOf g0) chunks0
        chunks0 [] e hmem
      rcases hprov with h | ⟨c1, hc1, he⟩
      · cases h
      · exact ⟨c1, hc1, by rw [he], by rw [he]; rfl, by rw [he]⟩

/-- Witness for C7: rebuilding the §8 example against the cache of its own
previous build hits for the shared chunk and reuses its bytes and identity
without recomputation. -/
theorem incremental_cache_correctness_witness :
    ∃ e, cacheLookup (buildCache gEx chunksEx)
        (chunkKey (digOf gEx) sharedEx) = some e ∧
      buildChunkCached (buildCache gEx chunksEx) (depsOf gEx) (digOf gEx)
        chunksEx sharedEx = (⟨sharedEx, e.ident, e.bytes⟩, false) ∧
      ∃ c1, c1 ∈ chunksEx ∧
        e.key = chunkKey (digOf gEx) c1 ∧
        e.ident = chunkIdentityOf gEx chunksEx c1 ∧
        e.bytes = serializeChunk (depsOf gEx) (digOf gEx) c1 :=
  incremental_cache_correctness gEx gEx pEx chunksEx chunksEx sharedEx sharedEx
    (by decide) (by decide) rfl

/-- C8: development builds have no per-chunk identity.  Under the
development configuration every emitted file name embeds the one
compilation-wide hash, so all artifacts of one development build share the
same hash string, and editing the content of any single module changes the
embedded hash of every development artifact. -/
theorem dev_build_single_hash (g : ModuleGraph) (chunks : List Chunk)
    (mid : ModuleId) (newC : Bytes) (M : SrcModule)
    (hM : lookupMod g mid = some M) (hne : newC ≠ M.content) :
    (∀ f, f ∈ devFileNames g chunks → f.hash = compilationHash g) ∧
    compilationHash (editContent g mid newC) ≠ compilationHash g ∧
    (∀ f f', f ∈ devFileNames (editContent g mid newC) chunks →
      f' ∈ devFileNames g chunks → f.base = f'.base → f ≠ f') := by
  have hall : ∀ (G : ModuleGraph) (f : DevFileName),
      f ∈ devFileNames G chunks → f.hash = compilationHash G := by
    intro G f hf
    unfold devFileNames at hf
    rcases List.mem_map.mp hf with ⟨c, _, hc⟩
    rw [← hc]
  have hmidmem : mid ∈ sortedIds g := by
    apply mem_sortedIds.mpr
    apply List.mem_map.mpr
    refine ⟨M, List.mem_of_find?_eq_some hM, ?_⟩
    have := List.find?_some hM
    simpa using this
  have hchanged : compilationHash (editContent g mid newC) ≠ compilationHash g := by
    unfold compilationHash
    rw [sortedIds_edit]
    intro h
    have hmaps := (digestOf_inj h).1
    have hdig : digOf (editContent g mid newC) mid ≠ digOf g mid := by
      rw [digOf_edit_self newC hM, digOf_self hM]
      exact hne
    exact map_ne_of_mem_ne hmidmem hdig hmaps
  refine ⟨hall g, hchanged, ?_⟩
  intro f f' hf hf' _ heq
  apply hchanged
  rw [← hall _ f hf, ← hall _ f' hf', heq]

/-- Witness for C8: in the development §8 example, all artifacts carry the
compilation hash, and editing module A changes every artifact's hash. -/
theorem dev_build_single_hash_witness :
    (∀ f, f ∈ devFileNames gEx chunksEx → f.hash = compilationHash gEx) ∧
    compilationHash (editContent gEx 0 [99]) ≠ compilationHash gEx ∧
    (∀ f f', f ∈ devFileNames (editContent gEx 0 [99]) chunksEx →
      f' ∈ devFileNames gEx chunksEx → f.base = f'.base → f ≠ f') :=
  dev_build_single_hash gEx chunksEx 0 [99] ⟨0, [10], [2]⟩ (by decide) (by decide)

/-- C9: the sign-in thunk rejects exactly on the sentinel username.  For
every credentials object the promise rejects with the fixed error message
iff the username is the string `fail`; for any other username it dispatches
`setUserData` with the hard-coded MEMBER record (id 1, username tomjones,
role MEMBER) and resolves; and the outcome never depends on the password. -/
theorem signIn_rejects_iff_sentinel (c : Credentials) :
    (signIn c = .rejected "Username or password was invalid" ↔
      c.username = "fail") ∧
    (c.username ≠ "fail" → signIn c = .resolved (setUserData memberUserData)) ∧
    (∀ pw, signIn ⟨c.username, pw⟩ = signIn c) ∧
    memberUserData.id = some (some 1) ∧
    memberUserData.username = some (some "tomjones") ∧
    memberUserData.role = some "MEMBER" := by
  unfold signIn
  by_cases h : c.username = "fail" <;>
    simp [h, memberUserData]

/-- Witness for C9: a non-sentinel username resolves with the member
record, and the sentinel username fails with the fixed message. -/
theorem signIn_rejects_iff_sentinel_witness :
    signIn ⟨"alice", "pw"⟩ = .resolved (setUserData memberUserData) ∧
    signIn ⟨"fail", "pw"⟩ = .rejected "Username or password was invalid" := by
  have T1 := signIn_rejects_iff_sentinel ⟨"alice", "pw"⟩
  have T2 := signIn_rejects_iff_sentinel ⟨"fail", "pw"⟩
  exact ⟨T1.2.1 (by decide), T2.1.mpr rfl⟩

/-- C10: user reducer frame property.  On a SET_USER_DATA action the
reducer returns a fresh merge of the payload over the previous state in
which every field absent from the payload is taken unchanged from the
previous state; on any other action it returns the input state itself. -/
theorem user_reducer_frame (s : UserState) (a : UAction) :
    (a.type ≠ SET_USER_DATA → userReducer s a = s) ∧
    (a.type = SET_USER_DATA →
      userReducer s a = objectAssign s a.userData ∧
      (a.userData.id = none → (userReducer s a).id = s.id) ∧
      (a.userData.firstName = none →
        (userReducer s a).firstName = s.firstName) ∧
      (a.userData.lastName = none → (userReducer s a).lastName = s.lastName) ∧
      (a.userData.username = none → (userReducer s a).username = s.username) ∧
      (a.userData.email = none → (userReducer s a).email = s.email) ∧
      (a.userData.role = none → (userReducer s a).role = s.role) ∧
      (∀ v, a.userData.id = some v → (userReducer s a).id = v) ∧
      (∀ v, a.userData.role = some v → (userReducer s a).role = v)) := by
  by_cases h : a.type = SET_USER_DATA
  · have hred : userReducer s a = objectAssign s a.userData := by
      unfold userReducer
      rw [if_pos h]
    refine ⟨fun hn => absurd h hn,
      fun _ => ⟨hred, ?_, ?_, ?_, ?_, ?_, ?_, ?_, ?_⟩⟩ <;>
      first
        | (intro hfield; rw [hred]; unfold objectAssign; rw [hfield]; rfl)
        | (intro v hfield; rw [hred]; unfold objectAssign; rw [hfield]; rfl)
  · have hred : userReducer s a = s := by
      unfold userReducer
      rw [if_neg h]
    exact ⟨fun _ => hred, fun hy => absurd hy h⟩

/-- Witness for C10: a non-matching action type returns the state
unchanged, and a payload containing only a role keeps every other field. -/
theorem user_reducer_frame_witness :
    userReducer InitialUserState ⟨"OTHER", memberUserData⟩ =
      InitialUserState ∧
    (userReducer InitialUserState
      (setUserData ⟨none, none, none, none, none, some "MEMBER"⟩)).id =
      InitialUserState.id ∧
    (userReducer InitialUserState
      (setUserData ⟨none, none, none, none, none, some "MEMBER"⟩)).role =
      "MEMBER" := by
  have T1 := user_reducer_frame InitialUserState ⟨"OTHER", memberUserData⟩
  have T2 := user_reducer_frame InitialUserState
    (setUserData ⟨none, none, none, none, none, some "MEMBER"⟩)
  exact ⟨T1.1 (by decide), (T2.2 rfl).2.1 rfl, (T2.2 rfl).2.2.2.2.2.2.2.2 _ rfl⟩
